import Mathlib

/-!
A shallow embedding of the B-tree implementation in `src/main.rs`
(`BTreeNode` / `BTree` over generic `K : Ord`, `V`, here instantiated at
`Int` keys and `Int` values, which carry the total order the code needs).

Conventions of the embedding:
* Rust `Vec` becomes `List`; `Vec::insert` / `Vec::drain` / indexing are
  modelled with `List.insertIdx` / `List.take`+`List.drop` / `List.get?`.
* Fallible operations (out-of-bounds indexing, failed `assert!`,
  `remove(0)` on an empty vector, all of which panic in Rust) are modelled
  by returning `none` in an outer `Option` layer: `none` = the Rust code
  panics, `some r` = the Rust code returns `r`.
* `usize` casts of the `i32` search result are modelled exactly:
  `i as usize` is `(i % 2^64).toNat` (two's-complement wrap), and the
  arithmetic of the binary search itself is over `Int`, which agrees with
  `i32` as long as `keys.len()` stays below `2^30` (no overflow of
  `high + low`); theorems about `find_it` carry that bound.
-/

/-- Rust `struct BTreeNode`: per-node capacity `node_size`, parallel
`keys`/`values` sequences and the owned child nodes. -/
structure BTreeNode where
  node_size : Nat
  keys : List Int
  values : List Int
  children : List BTreeNode

namespace BTreeNode

/-- Rust `BTreeNode::new`: fresh node with the given capacity and empty
key/value/child sequences. -/
def new (node_size : Nat) : BTreeNode :=
  { node_size := node_size, keys := [], values := [], children := [] }

theorem sizeOf_child_lt {c : BTreeNode} {n : BTreeNode}
    (h : c ∈ n.children) : sizeOf c < sizeOf n := by
  obtain ⟨ns, ks, vs, cs⟩ := n
  have h1 : sizeOf c < sizeOf cs := List.sizeOf_lt_of_mem h
  simp only [mk.sizeOf_spec]
  omega

theorem sizeOf_children_lt (n : BTreeNode) : sizeOf n.children < sizeOf n := by
  obtain ⟨ns, ks, vs, cs⟩ := n
  simp only [mk.sizeOf_spec]
  omega

/-- The loop of Rust `BTreeNode::find_it`: binary search with `low`/`high`
bounds; on `key = keys[mid]` it returns the encoded value `-mid - 1`,
otherwise it narrows the interval; when the interval is empty it returns
`low`.  (The Rust guard is `high != low`; the loop is only ever entered
with `low ≤ high`, where the two guards agree, and we use `high ≤ low`
to make the recursion well-founded.) -/
def find_it_go (keys : List Int) (key : Int) (low high : Int) : Int :=
  if high ≤ low then low
  else
    let mid := (high + low) / 2
    let k := keys.getD mid.toNat 0
    if key < k then find_it_go keys key low mid
    else if k < key then find_it_go keys key (mid + 1) high
    else -mid - 1
termination_by (high - low).toNat
decreasing_by
  · omega
  · omega

/-- Rust `BTreeNode::find_it`: binary search over the whole key sequence,
starting from `low = 0`, `high = keys.len()`. -/
def find_it (keys : List Int) (key : Int) : Int :=
  find_it_go keys key 0 keys.length

/-- Rust `BTreeNode::generate_find_path`.  The Rust loop pushes the
child-selection index on each descent, pushes the decoded slot `-(i+1)`
and stops on an exact match, and clears the stack and stops when there is
no exact match and no child to descend into; finally it reverses the
stack.  `acc` holds the already-pushed indices most-recent-first, so the
value returned here is exactly the reversed stack the Rust function
returns (and a cleared stack is `[]`). -/
def generate_find_path (n : BTreeNode) (key : Int) (acc : List Nat) : List Nat :=
  let i := find_it n.keys key
  if i < 0 then (-(i + 1)).toNat :: acc
  else if h : i.toNat < n.children.length then
    generate_find_path (n.children.get ⟨i.toNat, h⟩) key (i.toNat :: acc)
  else []
termination_by sizeOf n
decreasing_by
  exact sizeOf_child_lt (List.get_mem _ _ _)

/-- The `while let Some(index) = path.pop()` loop of Rust
`BTreeNode::find`.  Rust pops from the back of the path vector, which is
the front of the reversed list; each non-terminal popped index selects the
next child (`none` = the child access would panic), and the final popped
index becomes `key_index` (`0` when the path was empty). -/
def find_walk : BTreeNode → List Nat → Option (BTreeNode × Nat)
  | n, [] => some (n, 0)
  | n, [t] => some (n, t)
  | n, i :: rest =>
    match n.children[i]? with
    | none => none
    | some c => find_walk c rest

/-- Rust `BTreeNode::find`: generate the path, walk it, then compare the
key at the final slot.  `none` = the Rust code panics (out-of-bounds read
of `keys[key_index]`, `values[key_index]` or `children[index]`);
`some r` = the Rust code returns `r`. -/
def find (n : BTreeNode) (key : Int) : Option (Option Int) :=
  let path := generate_find_path n key []
  match find_walk n path.reverse with
  | none => none
  | some (node, key_index) =>
    match node.keys[key_index]? with
    | none => none
    | some k =>
      if k = key then
        match node.values[key_index]? with
        | none => none
        | some v => some (some v)
      else some none

/-- Rust `BTreeNode::split`: `mid = keys.len() / 2`; drain keys and
values from `mid` onward into a fresh node (which keeps no children);
the original keeps the prefixes and all of its children.  Returns
(updated self, new node). -/
def split (n : BTreeNode) : BTreeNode × BTreeNode :=
  let mid := n.keys.length / 2
  ({ n with keys := n.keys.take mid, values := n.values.take mid },
   { node_size := n.node_size, keys := n.keys.drop mid,
     values := n.values.drop mid, children := [] })

/-- The two `Vec::insert` calls of `add_recursive`:
`keys.insert(index, key); values.insert(index, value)`. -/
def insertAt (n : BTreeNode) (index : Nat) (key value : Int) : BTreeNode :=
  { n with keys := n.keys.insertIdx index key,
           values := n.values.insertIdx index value }

/-- The overflow check ending Rust `add_recursive`: if the key count has
reached `node_size + 1`, split and hand the new sibling to the caller. -/
def finishAdd (n : BTreeNode) : BTreeNode × Option BTreeNode :=
  if n.keys.length = n.node_size + 1 then
    ((split n).1, some (split n).2)
  else (n, none)

/-- Rust `BTreeNode::add_recursive`.  Result `some (n', opt)` is the
mutated node plus the optional overflow sibling; `none` = the Rust code
panics.  The panic sources modelled: `keys.insert`/`values.insert` with
an out-of-range index, the failed `assert!(index <= children.len() + 1)`
after the `i as usize` two's-complement cast (`(i % 2^64).toNat`) of a
negative search result, the `children[index]` access itself, and
`keys.remove(0)`/`values.remove(0)` on an empty sibling. -/
def add_recursive (n : BTreeNode) (key value : Int) :
    Option (BTreeNode × Option BTreeNode) :=
  let i := find_it n.keys key
  if n.children.length < n.node_size + 1 then
    -- "Add directly to leaf node"
    let index := if i < 0 then (-(i + 1)).toNat else i.toNat
    if index ≤ n.keys.length ∧ index ≤ n.values.length then
      some (finishAdd (insertAt n index key value))
    else none
  else
    let index := (i % 2 ^ 64).toNat
    if index ≤ n.children.length + 1 then
      if h : index < n.children.length then
        match add_recursive (n.children.get ⟨index, h⟩) key value with
        | none => none
        | some (c', none) =>
          some (finishAdd { n with children := n.children.set index c' })
        | some (c', some s) =>
          match s.keys, s.values with
          | nk :: tk, nv :: tv =>
            if index ≤ n.keys.length ∧ index ≤ n.values.length then
              let sTail : BTreeNode := { s with keys := tk, values := tv }
              let children' := (n.children.set index c').insertIdx (index + 1) sTail
              some (finishAdd (insertAt { n with children := children' } index nk nv))
            else none
          | _, _ => none
      else none
    else none
termination_by sizeOf n
decreasing_by
  exact sizeOf_child_lt (List.get_mem _ _ _)

end BTreeNode

/-- Rust `struct BTree`: a handle owning the root node. -/
structure BTree where
  root : BTreeNode

namespace BTree

/-- Rust `BTree::new`. -/
def new (node_size : Nat) : BTree := ⟨BTreeNode.new node_size⟩

/-- Rust `BTree::add`: run `add_recursive` on the root; on overflow,
remove the sibling's first key/value, and install a new root whose
children are `[old root, sibling]`.  `none` = panic. -/
def add (t : BTree) (key value : Int) : Option BTree :=
  match BTreeNode.add_recursive t.root key value with
  | none => none
  | some (root', none) => some ⟨root'⟩
  | some (root', some overflow) =>
    match overflow.keys, overflow.values with
    | ok :: tk, ov :: tv =>
      some ⟨{ node_size := root'.node_size, keys := [ok], values := [ov],
              children := [root', { overflow with keys := tk, values := tv }] }⟩
    | _, _ => none

/-- Rust `BTree::find`. -/
def find (t : BTree) (key : Int) : Option (Option Int) := t.root.find key

end BTree

/-- Iterated `BTree::add` over a list of (key, value) pairs, propagating
panics. -/
def addAll (t : BTree) : List (Int × Int) → Option BTree
  | [] => some t
  | (k, v) :: ps =>
    match t.add k v with
    | none => none
    | some t' => addAll t' ps

/-! ### Measures and invariant predicates

`height` is the usual tree height (a leaf has height 1); the spec's
"height becomes 2" statements are about this measure.  `allB p` checks a
per-node property on every node of a subtree.  `treeKeys` collects every
key stored in a subtree.  These are observers used to *state* spec
properties; they embed no program logic. -/

mutual

/-- Height of a node: 1 for a leaf, 1 + max child height otherwise. -/
def height (n : BTreeNode) : Nat :=
  1 + heightList n.children
termination_by sizeOf n
decreasing_by
  exact BTreeNode.sizeOf_children_lt n

/-- Maximum height over a list of nodes (0 for the empty list). -/
def heightList : List BTreeNode → Nat
  | [] => 0
  | c :: cs => max (height c) (heightList cs)
termination_by l => sizeOf l
decreasing_by
  all_goals simp
  all_goals omega

end

mutual

/-- `allB p n`: the per-node check `p` holds on `n` and every node of
every subtree of `n`. -/
def allB (p : BTreeNode → Bool) (n : BTreeNode) : Bool :=
  p n && allBList p n.children
termination_by sizeOf n
decreasing_by
  exact BTreeNode.sizeOf_children_lt n

/-- `allB` over a list of roots. -/
def allBList (p : BTreeNode → Bool) : List BTreeNode → Bool
  | [] => true
  | c :: cs => allB p c && allBList p cs
termination_by l => sizeOf l
decreasing_by
  all_goals simp
  all_goals omega

end

mutual

/-- Every key stored in the subtree rooted at `n` (own keys first, then
the children's, left to right). -/
def treeKeys (n : BTreeNode) : List Int :=
  n.keys ++ treeKeysList n.children
termination_by sizeOf n
decreasing_by
  exact BTreeNode.sizeOf_children_lt n

/-- `treeKeys` over a list of roots. -/
def treeKeysList : List BTreeNode → List Int
  | [] => []
  | c :: cs => treeKeys c ++ treeKeysList cs
termination_by l => sizeOf l
decreasing_by
  all_goals simp
  all_goals omega

end

/-- Boolean test that a key sequence is strictly increasing. -/
def strictChainB : List Int → Bool
  | [] => true
  | [_] => true
  | a :: b :: rest => decide (a < b) && strictChainB (b :: rest)

/-- Lockstep walk of a node's keys and children implementing the spec's
per-index clauses: for every index `i` of a key, every key stored in the
subtree `children[i]` is below `keys[i]` and every key stored in the
subtree `children[i+1]` is above `keys[i]`; an index with no
corresponding child imposes nothing. -/
def ordZipB : List Int → List BTreeNode → Bool
  | [], _ => true
  | _ :: _, [] => true
  | k :: ks, [c] =>
    (treeKeys c).all (fun x => decide (x < k)) && ordZipB ks []
  | k :: ks, c :: c2 :: cs =>
    (treeKeys c).all (fun x => decide (x < k)) &&
    (treeKeys c2).all (fun x => decide (k < x)) &&
    ordZipB ks (c2 :: cs)

/-- The per-node ordering property of the spec: the node's keys are
strictly increasing, and the subtree/key order clauses of `ordZipB`
hold. -/
def ordB (n : BTreeNode) : Bool :=
  strictChainB n.keys && ordZipB n.keys n.children

/-- The spec's ordering invariant, required at every node of the tree. -/
def orderingInvB (n : BTreeNode) : Bool := allB ordB n

/-- Per-node capacity invariant of a tree with capacity `cap`: at most
`cap` keys, and the node's recorded `node_size` is `cap`. -/
def capOKB (cap : Nat) (m : BTreeNode) : Bool :=
  decide (m.keys.length ≤ cap) && decide (m.node_size = cap)

/-- The tree the code builds from capacity 2 and that insertion
sequence: root keys `[0, 2]` over the two children left over from the
first root split, which still hold keys `1` and `3`. -/
def cexTree : BTree :=
  ⟨⟨2, [0, 2], [40, 20], [⟨2, [1], [10], []⟩, ⟨2, [3], [30], []⟩]⟩⟩


/-! ### Concrete executions

The sequence `(1,10), (2,20), (3,30), (0,40)` inserted into a fresh tree
of capacity 2 exercises the "pretend-leaf" rule of `add_recursive`
(direct insertion into the root although it already has children) and is
shared by several counterexamples below. -/

theorem addStep1 : BTree.add (BTree.new 2) 1 10 = some ⟨⟨2, [1], [10], []⟩⟩ := by
  simp [BTree.add, BTree.new, BTreeNode.add_recursive, BTreeNode.find_it,
    BTreeNode.find_it_go, BTreeNode.new, BTreeNode.insertAt,
    BTreeNode.finishAdd, BTreeNode.split]

theorem addStep2 :
    BTree.add ⟨⟨2, [1], [10], []⟩⟩ 2 20 = some ⟨⟨2, [1, 2], [10, 20], []⟩⟩ := by
  simp [BTree.add, BTreeNode.add_recursive, BTreeNode.find_it,
    BTreeNode.find_it_go, BTreeNode.insertAt,
    BTreeNode.finishAdd, BTreeNode.split]

theorem addStep3 :
    BTree.add ⟨⟨2, [1, 2], [10, 20], []⟩⟩ 3 30 =
      some ⟨⟨2, [2], [20], [⟨2, [1], [10], []⟩, ⟨2, [3], [30], []⟩]⟩⟩ := by
  simp [BTree.add, BTreeNode.add_recursive, BTreeNode.find_it,
    BTreeNode.find_it_go, BTreeNode.insertAt,
    BTreeNode.finishAdd, BTreeNode.split]

theorem addStep4 :
    BTree.add ⟨⟨2, [2], [20], [⟨2, [1], [10], []⟩, ⟨2, [3], [30], []⟩]⟩⟩ 0 40 =
      some cexTree := by
  simp [BTree.add, BTreeNode.add_recursive, BTreeNode.find_it,
    BTreeNode.find_it_go, BTreeNode.insertAt,
    BTreeNode.finishAdd, BTreeNode.split, cexTree]

theorem addAll_cex :
    addAll (BTree.new 2) [(1, 10), (2, 20), (3, 30), (0, 40)] = some cexTree := by
  simp [addAll, addStep1, addStep2, addStep3, addStep4]

theorem find_cex_1 : BTree.find cexTree 1 = some none := by
  simp [cexTree, BTree.find, BTreeNode.find, BTreeNode.generate_find_path,
    BTreeNode.find_walk, BTreeNode.find_it, BTreeNode.find_it_go]

/-- C1 (refuted, code bug).  The claim: after every intermediate
insertion of any duplicate-free sequence into a fresh tree of any
capacity ≥ 1, `find` returns the associated value of every key inserted
so far.  On capacity 2, after inserting `(1,10), (2,20), (3,30), (0,40)`
the code's `find 1` returns `None` (`some none`: it terminates without
panicking, but does not find the key), although `(1, 10)` was inserted;
the claim demands `Some 10` (`some (some 10)`).  The insertion of key
`0` goes directly into the root, which already has children, pushing the
separator key `2` out of alignment with the child holding key `1`. -/
theorem find_after_add_fails :
    ∃ t : BTree,
      addAll (BTree.new 2) [(1, 10), (2, 20), (3, 30), (0, 40)] = some t ∧
      BTree.find t 1 = some none ∧ BTree.find t 1 ≠ some (some 10) :=
  ⟨cexTree, addAll_cex, find_cex_1, by simp [find_cex_1]⟩

/-- C3 (refuted, code bug).  The claim: after every sequence of adds
from a fresh tree, every node satisfies the ordering invariant.  After
inserting `(1,10), (2,20), (3,30), (0,40)` into a fresh capacity-2 tree
the root has keys `[0, 2]` while its first child still holds the key
`1 > 0`, violating "every key in `children[0]` is less than `keys[0]`";
`orderingInvB` (the invariant, as stated in the claim) evaluates to
`false` on the resulting tree. -/
theorem ordering_invariant_fails :
    ∃ t : BTree,
      addAll (BTree.new 2) [(1, 10), (2, 20), (3, 30), (0, 40)] = some t ∧
      orderingInvB t.root = false :=
  ⟨cexTree, addAll_cex, by
    simp [cexTree, orderingInvB, allB, allBList, ordB, ordZipB,
      strictChainB, treeKeys, treeKeysList]⟩

/-- C2 (refuted, code bug).  The claim: `find` on a freshly
constructed tree returns "not found" for any key without crashing.  In
the code, `generate_find_path` returns an empty path for the empty root,
and `find` then unconditionally reads `keys[0]` on the root's empty key
sequence: an out-of-bounds read, i.e. a panic (`none` in the embedding),
for every capacity and every key. -/
theorem find_empty_tree_panics (c : Nat) (k : Int) :
    BTree.find (BTree.new c) k = none := by
  simp [BTree.find, BTree.new, BTreeNode.new, BTreeNode.find,
    BTreeNode.generate_find_path, BTreeNode.find_walk, BTreeNode.find_it,
    BTreeNode.find_it_go]
/-! ### Correctness of the binary-search primitive `find_it` -/

namespace BTreeNode

/-- Interval bounds of `find_it_go`, with no assumption on the key
sequence: a non-negative result is at most `keys.length`, a negative
result encodes a slot `m < keys.length` as `-m - 1`. -/
theorem find_it_go_bounds (keys : List Int) (key : Int) :
    ∀ (d : Nat) (low high : Int), (high - low).toNat ≤ d →
      0 ≤ low → low ≤ high → high ≤ keys.length →
      (0 ≤ find_it_go keys key low high ∧
        find_it_go keys key low high ≤ keys.length) ∨
      (∃ m : Nat, m < keys.length ∧
        find_it_go keys key low high = -(m : Int) - 1) := by
  intro d
  induction d with
  | zero =>
    intro low high hd h0 hlh hhl
    have hh : high ≤ low := by omega
    rw [find_it_go, if_pos hh]
    left; omega
  | succ d ih =>
    intro low high hd h0 hlh hhl
    rw [find_it_go]
    by_cases hh : high ≤ low
    · rw [if_pos hh]; left; omega
    · rw [if_neg hh]
      simp only []
      by_cases h1 : key < keys.getD ((high + low) / 2).toNat 0
      · rw [if_pos h1]
        exact ih low ((high + low) / 2) (by omega) h0 (by omega) (by omega)
      · rw [if_neg h1]
        by_cases h2 : keys.getD ((high + low) / 2).toNat 0 < key
        · rw [if_pos h2]
          exact ih ((high + low) / 2 + 1) high (by omega) (by omega) (by omega) hhl
        · rw [if_neg h2]
          right
          refine ⟨((high + low) / 2).toNat, by omega, by omega⟩

/-- Bounds of `find_it` itself. -/
theorem find_it_bounds (keys : List Int) (key : Int) :
    (0 ≤ find_it keys key ∧ find_it keys key ≤ keys.length) ∨
    (∃ m : Nat, m < keys.length ∧ find_it keys key = -(m : Int) - 1) :=
  find_it_go_bounds keys key keys.length 0 keys.length (by omega) (by omega)
    (by omega) (by omega)

/-- Full functional contract of the `find_it_go` loop on a sorted key
sequence, by induction on the interval width: the loop either finds an
exact match and encodes its slot, or returns the insertion point of the
key, provided everything left of `low` is below the key and everything
from `high` on is above it. -/
theorem find_it_go_spec (keys : List Int) (key : Int)
    (hs : ∀ (a b : Nat) (ha : a < keys.length) (hb : b < keys.length),
      a < b → keys[a] < keys[b]) :
    ∀ (d : Nat) (low high : Int), (high - low).toNat ≤ d →
      0 ≤ low → low ≤ high → high ≤ keys.length →
      (∀ (j : Nat) (hj : j < keys.length), (j : Int) < low → keys[j] < key) →
      (∀ (j : Nat) (hj : j < keys.length), high ≤ (j : Int) → key < keys[j]) →
      (∃ m : Nat, ∃ hm : m < keys.length, keys[m] = key ∧
          find_it_go keys key low high = -(m : Int) - 1) ∨
      (0 ≤ find_it_go keys key low high ∧
       find_it_go keys key low high ≤ keys.length ∧
       (∀ (j : Nat) (hj : j < keys.length),
          (j : Int) < find_it_go keys key low high → keys[j] < key) ∧
       (∀ (j : Nat) (hj : j < keys.length),
          find_it_go keys key low high ≤ (j : Int) → key < keys[j])) := by
  intro d
  induction d with
  | zero =>
    intro low high hd h0 hlh hhl hlo hhi
    have hh : high ≤ low := by omega
    rw [find_it_go, if_pos hh]
    right
    exact ⟨h0, by omega, fun j hj hjl => hlo j hj hjl,
      fun j hj hjl => hhi j hj (by omega)⟩
  | succ d ih =>
    intro low high hd h0 hlh hhl hlo hhi
    rw [find_it_go]
    by_cases hh : high ≤ low
    · rw [if_pos hh]
      right
      exact ⟨h0, by omega, fun j hj hjl => hlo j hj hjl,
        fun j hj hjl => hhi j hj (by omega)⟩
    · rw [if_neg hh]
      simp only []
      have hmidlt : ((high + low) / 2).toNat < keys.length := by omega
      have hgetd : keys.getD ((high + low) / 2).toNat 0 =
          keys[((high + low) / 2).toNat] := List.getD_eq_getElem keys 0 hmidlt
      by_cases h1 : key < keys.getD ((high + low) / 2).toNat 0
      · rw [if_pos h1]
        refine ih low ((high + low) / 2) (by omega) h0 (by omega) (by omega)
          hlo ?_
        intro j hj hjge
        rcases Nat.lt_or_ge j ((high + low) / 2).toNat with hlt | hge
        · omega
        · rcases Nat.eq_or_lt_of_le hge with heq | hgt
          · rw [hgetd] at h1
            have : keys[((high + low) / 2).toNat] = keys[j] := by
              congr 1
            omega
          · have := hs ((high + low) / 2).toNat j hmidlt hj hgt
            rw [hgetd] at h1
            omega
      · rw [if_neg h1]
        by_cases h2 : keys.getD ((high + low) / 2).toNat 0 < key
        · rw [if_pos h2]
          refine ih ((high + low) / 2 + 1) high (by omega) (by omega) (by omega)
            hhl ?_ hhi
          intro j hj hjlt
          rcases Nat.lt_or_ge j ((high + low) / 2).toNat with hlt | hge
          · have := hs j ((high + low) / 2).toNat hj hmidlt hlt
            rw [hgetd] at h2
            omega
          · have heq : j = ((high + low) / 2).toNat := by omega
            rw [hgetd] at h2
            have : keys[j] = keys[((high + low) / 2).toNat] := by
              congr 1
            omega
        · rw [if_neg h2]
          left
          refine ⟨((high + low) / 2).toNat, hmidlt, ?_, by omega⟩
          rw [hgetd] at h1 h2
          omega

/-- Full functional contract of `find_it` on a strictly sorted key
sequence. -/
theorem find_it_spec (keys : List Int) (key : Int)
    (hs : keys.Chain' (· < ·)) :
    (∃ m : Nat, ∃ hm : m < keys.length, keys[m] = key ∧
        find_it keys key = -(m : Int) - 1) ∨
    (0 ≤ find_it keys key ∧ find_it keys key ≤ keys.length ∧
     (∀ (j : Nat) (hj : j < keys.length),
        (j : Int) < find_it keys key → keys[j] < key) ∧
     (∀ (j : Nat) (hj : j < keys.length),
        (keys.length : Int) ≤ (j : Int) ∨ find_it keys key ≤ (j : Int) →
          key < keys[j])) := by
  have hs' : ∀ (a b : Nat) (ha : a < keys.length) (hb : b < keys.length),
      a < b → keys[a] < keys[b] := by
    intro a b ha hb hab
    have hp : keys.Pairwise (· < ·) := List.chain'_iff_pairwise.mp hs
    exact List.pairwise_iff_getElem.mp hp a b ha hb hab
  have h := find_it_go_spec keys key hs' keys.length 0 keys.length (by omega)
    (by omega) (by omega) (by omega) (by omega) (by omega)
  rw [find_it] at *
  rcases h with h | ⟨h1, h2, h3, h4⟩
  · exact Or.inl h
  · right
    refine ⟨h1, h2, h3, fun j hj hjd => h4 j hj ?_⟩
    rcases hjd with hjd | hjd
    · omega
    · exact hjd

end BTreeNode

namespace BTreeNode

/-- If every key of a sorted sequence is below the target, `find_it`
returns the length of the sequence (insert at the end). -/
theorem find_it_of_all_lt (keys : List Int) (key : Int)
    (hs : keys.Chain' (· < ·))
    (hall : ∀ (j : Nat) (hj : j < keys.length), keys[j] < key) :
    find_it keys key = keys.length := by
  rcases find_it_spec keys key hs with ⟨m, hm, heq, _⟩ | ⟨h1, h2, _, h4⟩
  · have := hall m hm
    omega
  · by_contra hne
    have hlt : find_it keys key < keys.length := by omega
    have hj : (find_it keys key).toNat < keys.length := by omega
    have := h4 (find_it keys key).toNat hj (Or.inr (by omega))
    have := hall (find_it keys key).toNat hj
    omega

/-- On a sorted key sequence containing the target, `find_it` returns a
negative (found) code. -/
theorem find_it_neg_of_mem (keys : List Int) (key : Int)
    (hs : keys.Chain' (· < ·)) (hmem : key ∈ keys) :
    ∃ m : Nat, m < keys.length ∧ find_it keys key = -(m : Int) - 1 := by
  rcases find_it_spec keys key hs with ⟨m, hm, _, heq⟩ | ⟨h1, h2, h3, h4⟩
  · exact ⟨m, hm, heq⟩
  · obtain ⟨j, hj, hjeq⟩ := List.mem_iff_getElem.mp hmem
    rcases Int.lt_or_le (j : Int) (find_it keys key) with hlt | hge
    · have := h3 j hj hlt
      omega
    · have := h4 j hj (Or.inr hge)
      omega

/-- C5 (confirmed).  On every strictly-ascending (hence
duplicate-free) key sequence of a size a real `Vec` index permits
without `i32` overflow, `find_it` returns either the distinctly-encoded
"exact match at slot m" value `-m - 1` with `keys[m] = key`, or the
insertion index `low ∈ [0, keys.length]`: everything below the index is
less than the key and everything from the index on is greater.  On an
empty key sequence it returns the insertion index `0` (which is
non-negative, hence never an exact-match code). -/
theorem find_it_search_contract (keys : List Int) (key : Int)
    (hs : keys.Chain' (· < ·)) (hlen : keys.length < 2 ^ 30) :
    (keys = [] → find_it keys key = 0) ∧
    ((∃ m : Nat, ∃ hm : m < keys.length, keys[m] = key ∧
        find_it keys key = -(m : Int) - 1) ∨
     (0 ≤ find_it keys key ∧ find_it keys key ≤ keys.length ∧
      (∀ (j : Nat) (hj : j < keys.length),
        (j : Int) < find_it keys key → keys[j] < key) ∧
      (∀ (j : Nat) (hj : j < keys.length),
        find_it keys key ≤ (j : Int) → key < keys[j]))) := by
  constructor
  · intro h
    subst h
    rw [find_it]
    simp [find_it_go]
  · rcases find_it_spec keys key hs with h | ⟨h1, h2, h3, h4⟩
    · exact Or.inl h
    · exact Or.inr ⟨h1, h2, h3, fun j hj hjd => h4 j hj (Or.inr hjd)⟩

/-- Witness for C5: the contract evaluated at `keys = [1, 3, 5]`,
`key = 3` (an exact match at slot 1). -/
theorem find_it_search_contract_witness :
    (([1, 3, 5] : List Int).Chain' (· < ·) ∧
      ([1, 3, 5] : List Int).length < 2 ^ 30) ∧
    ((([1, 3, 5] : List Int) = [] → find_it [1, 3, 5] 3 = 0) ∧
     ((∃ m : Nat, ∃ hm : m < ([1, 3, 5] : List Int).length,
         ([1, 3, 5] : List Int)[m] = 3 ∧
         find_it [1, 3, 5] 3 = -(m : Int) - 1) ∨
      (0 ≤ find_it [1, 3, 5] 3 ∧
       find_it [1, 3, 5] 3 ≤ ([1, 3, 5] : List Int).length ∧
       (∀ (j : Nat) (hj : j < ([1, 3, 5] : List Int).length),
         (j : Int) < find_it [1, 3, 5] 3 → ([1, 3, 5] : List Int)[j] < 3) ∧
       (∀ (j : Nat) (hj : j < ([1, 3, 5] : List Int).length),
         find_it [1, 3, 5] 3 ≤ (j : Int) → 3 < ([1, 3, 5] : List Int)[j])))) :=
  ⟨⟨by simp [List.chain'_cons], by norm_num⟩,
    find_it_search_contract [1, 3, 5] 3 (by simp [List.chain'_cons])
      (by norm_num)⟩

end BTreeNode

/-- C7 (confirmed).  `split` computes `mid = keys.length / 2` and
moves exactly the entries at indices `mid..` of `keys` and `values`, in
order, into the new sibling, while the original node keeps exactly the
entries at indices `0..mid`; the sibling starts with no children and the
original's children are untouched.  Stated both structurally
(take/drop) and index-wise. -/
theorem split_partition (n : BTreeNode) :
    ((BTreeNode.split n).1.keys = n.keys.take (n.keys.length / 2) ∧
     (BTreeNode.split n).1.values = n.values.take (n.keys.length / 2) ∧
     (BTreeNode.split n).1.children = n.children ∧
     (BTreeNode.split n).1.node_size = n.node_size) ∧
    ((BTreeNode.split n).2.keys = n.keys.drop (n.keys.length / 2) ∧
     (BTreeNode.split n).2.values = n.values.drop (n.keys.length / 2) ∧
     (BTreeNode.split n).2.children = [] ∧
     (BTreeNode.split n).2.node_size = n.node_size) ∧
    ((BTreeNode.split n).1.keys.length = n.keys.length / 2 ∧
     (BTreeNode.split n).2.keys.length = n.keys.length - n.keys.length / 2) ∧
    (∀ (j : Nat), j < n.keys.length / 2 →
       ((BTreeNode.split n).1.keys)[j]? = n.keys[j]?) ∧
    (∀ (j : Nat), ((BTreeNode.split n).2.keys)[j]? =
       n.keys[n.keys.length / 2 + j]?) := by
  refine ⟨⟨rfl, rfl, rfl, rfl⟩, ⟨rfl, rfl, rfl, rfl⟩, ⟨?_, ?_⟩, ?_, ?_⟩
  · simp [BTreeNode.split, List.length_take]
    omega
  · simp [BTreeNode.split, List.length_drop]
  · intro j hj
    show (n.keys.take (n.keys.length / 2))[j]? = n.keys[j]?
    rw [List.getElem?_take, if_pos hj]
  · intro j
    show (n.keys.drop (n.keys.length / 2))[j]? = n.keys[n.keys.length / 2 + j]?
    rw [List.getElem?_drop]

/-- Witness for C7 at the node `⟨1, [1, 2, 3], [10, 20, 30], []⟩`
(`mid = 1`): the retained slot 0 and the moved slot at offset 0. -/
theorem split_partition_witness :
    (0 < (([1, 2, 3] : List Int).length) / 2 ∧
      ((BTreeNode.split ⟨1, [1, 2, 3], [10, 20, 30], []⟩).1.keys)[0]? =
        ([1, 2, 3] : List Int)[0]?) ∧
    ((BTreeNode.split ⟨1, [1, 2, 3], [10, 20, 30], []⟩).2.keys)[0]? =
      ([1, 2, 3] : List Int)[([1, 2, 3] : List Int).length / 2 + 0]? :=
  ⟨⟨by norm_num, (split_partition ⟨1, [1, 2, 3], [10, 20, 30], []⟩).2.2.2.1 0
      (by norm_num)⟩,
    (split_partition ⟨1, [1, 2, 3], [10, 20, 30], []⟩).2.2.2.2 0⟩

/-- C10 (confirmed).  If `add_recursive` reaches a node in the
recursion branch (child count at least `capacity + 1`) whose sorted key
sequence already contains the key being inserted, `find_it` returns the
negative found code, the Rust cast `i as usize` wraps it to an enormous
index, and the operation panics (`assert!(index <= children.len() + 1)`
fails, so the out-of-bounds `children[index]` access is never even
reached) instead of returning.  The arithmetic hypothesis only says the
node is small enough to exist in a real process (`usize` arithmetic). -/
theorem duplicate_key_internal_panics (n : BTreeNode) (k v : Int)
    (hs : n.keys.Chain' (· < ·)) (hmem : k ∈ n.keys)
    (hcap : n.node_size + 1 ≤ n.children.length)
    (hsz : n.children.length + n.keys.length < 2 ^ 64 - 1) :
    BTreeNode.add_recursive n k v = none := by
  obtain ⟨m, hm, hneg⟩ := BTreeNode.find_it_neg_of_mem n.keys k hs hmem
  rw [BTreeNode.add_recursive]
  rw [if_neg (by omega)]
  simp only [hneg]
  rw [if_neg]
  omega

/-- Witness for C10: a capacity-1 node with two children (the shape the
code itself builds after a root split) and a duplicate of its key `5`. -/
theorem duplicate_key_internal_panics_witness :
    BTreeNode.add_recursive
      ⟨1, [5], [50], [⟨1, [1], [10], []⟩, ⟨1, [], [], []⟩]⟩ 5 99 = none :=
  duplicate_key_internal_panics
    ⟨1, [5], [50], [⟨1, [1], [10], []⟩, ⟨1, [], [], []⟩]⟩ 5 99
    (by simp) (by simp) (by simp) (by norm_num)

namespace BTreeNode

/-- C9 (confirmed).  `add_recursive` chooses between direct insertion
and recursion purely by child count.  (a) When
`children.length < capacity + 1` the pair is inserted directly into this
node's key/value sequences at the computed index — the node's children,
possibly non-empty, are not consulted or entered (only the overflow
check `finishAdd` follows).  (b) Only when
`children.length ≥ capacity + 1` does it recurse into the child at the
computed index; when that child reports no overflow, the parent's keys
and values are untouched and only the child slot is updated.  The
`values.length = keys.length` and `keys.length < 2^64` hypotheses say
the node is a well-formed `Vec`-backed node (parallel sequences, real
`usize` size). -/
theorem insert_decision_by_child_count (n : BTreeNode) (k v : Int) :
    (n.children.length < n.node_size + 1 →
      n.values.length = n.keys.length →
      add_recursive n k v =
        some (finishAdd (insertAt n
          (if find_it n.keys k < 0 then (-(find_it n.keys k + 1)).toNat
           else (find_it n.keys k).toNat) k v))) ∧
    (n.node_size + 1 ≤ n.children.length →
      ∀ idx : Nat, (idx : Int) = find_it n.keys k →
        n.keys.length < 2 ^ 64 →
        ∀ (h : idx < n.children.length) (c' : BTreeNode),
          add_recursive (n.children.get ⟨idx, h⟩) k v = some (c', none) →
          add_recursive n k v =
            some (finishAdd { n with children := n.children.set idx c' })) := by
  constructor
  · intro hlt hv
    have hb := find_it_bounds n.keys k
    have hguard : (if find_it n.keys k < 0 then (-(find_it n.keys k + 1)).toNat
        else (find_it n.keys k).toNat) ≤ n.keys.length := by
      rcases hb with ⟨h1, h2⟩ | ⟨m, hm, he⟩
      · rw [if_neg (by omega)]
        omega
      · rw [if_pos (by omega)]
        omega
    rw [add_recursive.eq_def]
    simp only []
    rw [if_pos hlt, if_pos ⟨hguard, by omega⟩]
  · intro hge idx hidx hlen h c' hrec
    have hb := find_it_bounds n.keys k
    have hmod : ((find_it n.keys k) % 2 ^ 64).toNat = idx := by
      rcases hb with ⟨h1, h2⟩ | ⟨m, hm, he⟩
      · omega
      · omega
    rw [add_recursive.eq_def]
    simp only []
    rw [if_neg (by omega)]
    simp only [hmod]
    rw [if_pos (by omega), dif_pos h, hrec]

end BTreeNode

/-- Witness for C9: (a) direct insertion of key 0 into a capacity-2 root
that already has two children (the fourth step of the shared
counterexample run); (b) recursion into the second (empty) child of a
capacity-1 node with two children. -/
theorem insert_decision_by_child_count_witness :
    (BTreeNode.add_recursive
        ⟨2, [2], [20], [⟨2, [1], [10], []⟩, ⟨2, [3], [30], []⟩]⟩ 0 40 =
      some (BTreeNode.finishAdd (BTreeNode.insertAt
        ⟨2, [2], [20], [⟨2, [1], [10], []⟩, ⟨2, [3], [30], []⟩]⟩
        (if BTreeNode.find_it [2] 0 < 0 then
          (-(BTreeNode.find_it [2] 0 + 1)).toNat
         else (BTreeNode.find_it [2] 0).toNat) 0 40))) ∧
    (BTreeNode.add_recursive
        ⟨1, [5], [50], [⟨1, [1], [10], []⟩, ⟨1, [], [], []⟩]⟩ 8 80 =
      some (BTreeNode.finishAdd
        { (⟨1, [5], [50], [⟨1, [1], [10], []⟩, ⟨1, [], [], []⟩]⟩ : BTreeNode) with
          children :=
            [⟨1, [1], [10], []⟩, ⟨1, [], [], []⟩].set 1 ⟨1, [8], [80], []⟩ })) := by
  constructor
  · exact (BTreeNode.insert_decision_by_child_count
      ⟨2, [2], [20], [⟨2, [1], [10], []⟩, ⟨2, [3], [30], []⟩]⟩ 0 40).1
      (by norm_num) (by norm_num)
  · refine (BTreeNode.insert_decision_by_child_count
      ⟨1, [5], [50], [⟨1, [1], [10], []⟩, ⟨1, [], [], []⟩]⟩ 8 80).2
      (by norm_num) 1 ?_ (by norm_num) (by norm_num) ⟨1, [8], [80], []⟩ ?_
    · simp [BTreeNode.find_it, BTreeNode.find_it_go]
    · show BTreeNode.add_recursive ⟨1, [], [], []⟩ 8 80 = _
      simp [BTreeNode.add_recursive, BTreeNode.find_it, BTreeNode.find_it_go,
        BTreeNode.insertAt, BTreeNode.finishAdd]

/-- Structural induction over the nested node type: to prove `P` for a
node it suffices to prove it assuming it for every child. -/
theorem node_ind (P : BTreeNode → Prop)
    (ih : ∀ n : BTreeNode, (∀ c ∈ n.children, P c) → P n) : ∀ n, P n
  | n => ih n (fun c hc => node_ind P ih c)
termination_by n => sizeOf n
decreasing_by exact BTreeNode.sizeOf_child_lt hc

theorem allBList_iff (p : BTreeNode → Bool) (l : List BTreeNode) :
    allBList p l = true ↔ ∀ c ∈ l, allB p c = true := by
  induction l with
  | nil => simp [allBList]
  | cons c cs ihl => simp [allBList, ihl]

theorem allB_iff (p : BTreeNode → Bool) (n : BTreeNode) :
    allB p n = true ↔ p n = true ∧ ∀ c ∈ n.children, allB p c = true := by
  rw [allB, Bool.and_eq_true, allBList_iff]

theorem finishAdd_capOK (cap : Nat) (hcap : 1 ≤ cap) (m : BTreeNode)
    (hsize : m.node_size = cap) (hkeys : m.keys.length ≤ cap + 1)
    (hch : ∀ c ∈ m.children, allB (capOKB cap) c = true) :
    allB (capOKB cap) (BTreeNode.finishAdd m).1 = true ∧
    ∀ s, (BTreeNode.finishAdd m).2 = some s → allB (capOKB cap) s = true := by
  by_cases hfull : m.keys.length = m.node_size + 1
  · have h1 : BTreeNode.finishAdd m =
        ((BTreeNode.split m).1, some (BTreeNode.split m).2) := by
      rw [BTreeNode.finishAdd, if_pos hfull]
    simp only [h1]
    constructor
    · rw [allB_iff]
      constructor
      · simp [capOKB, BTreeNode.split, List.length_take, hsize]
        omega
      · intro c hc
        exact hch c hc
    · intro s hs
      injection hs with hs
      rw [← hs, allB_iff]
      constructor
      · simp [capOKB, BTreeNode.split, List.length_drop, hsize]
        omega
      · intro c hc
        simp [BTreeNode.split] at hc
  · have h1 : BTreeNode.finishAdd m = (m, none) := by
      rw [BTreeNode.finishAdd, if_neg hfull]
    simp only [h1]
    refine ⟨?_, by intro s hs; cases hs⟩
    rw [allB_iff]
    refine ⟨?_, hch⟩
    simp [capOKB, hsize]
    omega

theorem add_recursive_capOK (cap : Nat) (hcap : 1 ≤ cap) :
    ∀ n : BTreeNode, allB (capOKB cap) n = true →
      ∀ (k v : Int) (n' : BTreeNode) (opt : Option BTreeNode),
        BTreeNode.add_recursive n k v = some (n', opt) →
        allB (capOKB cap) n' = true ∧
        ∀ s, opt = some s → allB (capOKB cap) s = true := by
  refine node_ind _ ?_
  intro n ih hn k v n' opt hadd
  obtain ⟨hself, hch⟩ := (allB_iff _ n).mp hn
  have hsz : n.keys.length ≤ cap ∧ n.node_size = cap := by
    simpa [capOKB] using hself
  rw [BTreeNode.add_recursive.eq_def] at hadd
  simp only [] at hadd
  by_cases hleaf : n.children.length < n.node_size + 1
  · rw [if_pos hleaf] at hadd
    set idx := (if BTreeNode.find_it n.keys k < 0 then
        (-(BTreeNode.find_it n.keys k + 1)).toNat
      else (BTreeNode.find_it n.keys k).toNat) with hidx
    by_cases hguard : idx ≤ n.keys.length ∧ idx ≤ n.values.length
    · rw [if_pos hguard] at hadd
      injection hadd with hadd
      rw [Prod.ext_iff] at hadd
      obtain ⟨h1, h2⟩ := hadd
      simp only at h1 h2
      rw [← h1]
      have hres := finishAdd_capOK cap hcap (BTreeNode.insertAt n idx k v)
        (by simp [BTreeNode.insertAt, hsz.2])
        (by simp only [BTreeNode.insertAt]
            rw [List.length_insertIdx _ _ hguard.1]
            omega)
        (by intro c hc; exact hch c hc)
      refine ⟨hres.1, ?_⟩
      intro s hs
      rw [hs] at h2
      exact hres.2 s h2
    · rw [if_neg hguard] at hadd
      cases hadd
  · rw [if_neg hleaf] at hadd
    set idx := ((BTreeNode.find_it n.keys k) % 2 ^ 64).toNat with hidx
    by_cases hassert : idx ≤ n.children.length + 1
    · rw [if_pos hassert] at hadd
      by_cases hin : idx < n.children.length
      · rw [dif_pos hin] at hadd
        have hmem := List.get_mem n.children idx hin
        rcases hrec : BTreeNode.add_recursive (n.children.get ⟨idx, hin⟩) k v
          with _ | ⟨c', copt⟩
        · rw [hrec] at hadd
          cases hadd
        · rw [hrec] at hadd
          have hcgood := ih _ hmem (hch _ hmem) k v c' copt hrec
          rcases copt with _ | s
          · simp only [] at hadd
            injection hadd with hadd
            rw [Prod.ext_iff] at hadd
            obtain ⟨h1, h2⟩ := hadd
            simp only at h1 h2
            rw [← h1]
            have hres := finishAdd_capOK cap hcap
                { n with children := n.children.set idx c' }
                (by simp [hsz.2]) (by simp; omega)
                (by intro c hc
                    rcases List.mem_or_eq_of_mem_set hc with hmem2 | heq
                    · exact hch c hmem2
                    · rw [heq]; exact hcgood.1)
            refine ⟨hres.1, ?_⟩
            intro s hs
            rw [hs] at h2
            exact hres.2 s h2
          · simp only [] at hadd
            have hsall := hcgood.2 s rfl
            obtain ⟨hsok, hsch⟩ := (allB_iff _ s).mp hsall
            have hslen : s.keys.length ≤ cap ∧ s.node_size = cap := by
              simpa [capOKB] using hsok
            rcases hske : s.keys with _ | ⟨nk, tk⟩ <;>
              rcases hsve : s.values with _ | ⟨nv, tv⟩ <;>
              rw [hske, hsve] at hadd
            · cases hadd
            · cases hadd
            · cases hadd
            · simp only [] at hadd
              by_cases hguard2 : idx ≤ n.keys.length ∧ idx ≤ n.values.length
              · rw [if_pos hguard2] at hadd
                injection hadd with hadd
                rw [Prod.ext_iff] at hadd
                obtain ⟨h1, h2⟩ := hadd
                simp only at h1 h2
                rw [← h1]
                have hstail :
                    allB (capOKB cap) ⟨s.node_size, tk, tv, s.children⟩ = true := by
                  rw [allB_iff]
                  constructor
                  · have htk : tk.length + 1 = s.keys.length := by
                      rw [hske]; simp
                    simp only [capOKB]
                    simp [hslen.2]
                    omega
                  · intro c hc
                    exact hsch c hc
                have hchildren' : ∀ c ∈ (n.children.set idx c').insertIdx (idx + 1)
                    ⟨s.node_size, tk, tv, s.children⟩, allB (capOKB cap) c = true := by
                  intro c hc
                  rw [List.mem_insertIdx (by rw [List.length_set]; omega)] at hc
                  rcases hc with heq | hc
                  · rw [heq]; exact hstail
                  · rcases List.mem_or_eq_of_mem_set hc with hmem2 | heq
                    · exact hch c hmem2
                    · rw [heq]; exact hcgood.1
                have hres := finishAdd_capOK cap hcap
                    (BTreeNode.insertAt
                      { n with children := (n.children.set idx c').insertIdx (idx + 1) ⟨s.node_size, tk, tv, s.children⟩ }
                      idx nk nv)
                    (by simp [BTreeNode.insertAt, hsz.2])
                    (by simp only [BTreeNode.insertAt]
                        rw [List.length_insertIdx _ _ hguard2.1]
                        omega)
                    (by intro c hc
                        exact hchildren' c hc)
                refine ⟨hres.1, ?_⟩
                intro s2 hs2
                rw [hs2] at h2
                exact hres.2 s2 h2
              · rw [if_neg hguard2] at hadd
                cases hadd
      · rw [dif_neg hin] at hadd
        cases hadd
    · rw [if_neg hassert] at hadd
      cases hadd

theorem allB_mono (p q : BTreeNode → Bool)
    (hpq : ∀ m, p m = true → q m = true) :
    ∀ n, allB p n = true → allB q n = true := by
  refine node_ind _ ?_
  intro n ih hp
  rw [allB_iff] at hp ⊢
  exact ⟨hpq _ hp.1, fun c hc => ih c hc (hp.2 c hc)⟩

theorem add_capOK (cap : Nat) (hcap : 1 ≤ cap) (t : BTree)
    (ht : allB (capOKB cap) t.root = true) (k v : Int) (t' : BTree)
    (h : BTree.add t k v = some t') : allB (capOKB cap) t'.root = true := by
  rw [BTree.add] at h
  rcases hrec : BTreeNode.add_recursive t.root k v with _ | ⟨r', ropt⟩ <;>
    rw [hrec] at h
  · cases h
  · have hr := add_recursive_capOK cap hcap t.root ht k v r' ropt hrec
    rcases ropt with _ | ov
    · simp only [] at h
      injection h with h
      rw [← h]
      exact hr.1
    · simp only [] at h
      have hov := hr.2 ov rfl
      obtain ⟨hovok, hovch⟩ := (allB_iff _ ov).mp hov
      have hovlen : ov.keys.length ≤ cap ∧ ov.node_size = cap := by
        simpa [capOKB] using hovok
      have hrlen : r'.node_size = cap := by
        have := ((allB_iff _ r').mp hr.1).1
        simp [capOKB] at this
        exact this.2
      rcases hoke : ov.keys with _ | ⟨ok, tk⟩ <;>
        rcases hove : ov.values with _ | ⟨ov0, tv⟩ <;>
        rw [hoke, hove] at h
      · cases h
      · cases h
      · cases h
      · injection h with h
        rw [← h]
        rw [allB_iff]
        constructor
        · simp [capOKB, hrlen]
          omega
        · intro c hc
          simp only [List.mem_cons] at hc
          rcases hc with hc | hc | hc
          · rw [hc]; exact hr.1
          · rw [hc]
            rw [allB_iff]
            refine ⟨?_, fun c2 hc2 => hovch c2 hc2⟩
            have : tk.length + 1 = ov.keys.length := by rw [hoke]; simp
            simp [capOKB, hovlen.2]
            omega
          · simp at hc
  
theorem addAll_capOK (cap : Nat) (hcap : 1 ≤ cap) :
    ∀ (ps : List (Int × Int)) (t : BTree),
      allB (capOKB cap) t.root = true →
      ∀ t', addAll t ps = some t' → allB (capOKB cap) t'.root = true := by
  intro ps
  induction ps with
  | nil =>
    intro t ht t' h
    rw [addAll] at h
    injection h with h
    rw [← h]
    exact ht
  | cons p ps ihp =>
    intro t ht t' h
    rcases p with ⟨k, v⟩
    rw [addAll] at h
    rcases hstep : BTree.add t k v with _ | t1 <;> rw [hstep] at h
    · cases h
    · simp only [] at h
      exact ihp t1 (add_capOK cap hcap t ht k v t1 hstep) t' h

/-- C4 (confirmed).  `add_recursive` splits a node exactly when its
key count reaches `capacity + 1` (the `finishAdd` check), so after every
top-level `add` that completes (no panic), starting from a fresh tree of
capacity `cap ≥ 1`, no node of the tree holds more than `cap` keys: a
key count of `capacity + 1` is never observable between top-level
operations. -/
theorem capacity_invariant (cap : Nat) (hcap : 1 ≤ cap)
    (ps : List (Int × Int)) (t : BTree)
    (h : addAll (BTree.new cap) ps = some t) :
    allB (fun m => decide (m.keys.length ≤ cap)) t.root = true := by
  have hinit : allB (capOKB cap) (BTree.new cap).root = true := by
    rw [allB_iff]
    constructor
    · simp [capOKB, BTree.new, BTreeNode.new]
    · intro c hc
      simp [BTree.new, BTreeNode.new] at hc
  have := addAll_capOK cap hcap ps (BTree.new cap) hinit t h
  refine allB_mono _ _ ?_ _ this
  intro m hm
  simp [capOKB] at hm
  simp [hm.1]

theorem addStepSmall1 :
    BTree.add (BTree.new 1) 1 10 = some ⟨⟨1, [1], [10], []⟩⟩ := by
  simp [BTree.add, BTree.new, BTreeNode.add_recursive, BTreeNode.find_it,
    BTreeNode.find_it_go, BTreeNode.new, BTreeNode.insertAt,
    BTreeNode.finishAdd, BTreeNode.split]

theorem addStepSmall2 :
    BTree.add ⟨⟨1, [1], [10], []⟩⟩ 2 20 =
      some ⟨⟨1, [2], [20], [⟨1, [1], [10], []⟩, ⟨1, [], [], []⟩]⟩⟩ := by
  simp [BTree.add, BTreeNode.add_recursive, BTreeNode.find_it,
    BTreeNode.find_it_go, BTreeNode.insertAt,
    BTreeNode.finishAdd, BTreeNode.split]

/-- Witness for C4: capacity 1, inserting `(1,10), (2,20)` (which forces
a root split); every node of the resulting tree holds at most 1 key. -/
theorem capacity_invariant_witness :
    allB (fun m => decide (m.keys.length ≤ 1))
      (⟨⟨1, [2], [20], [⟨1, [1], [10], []⟩, ⟨1, [], [], []⟩]⟩⟩ : BTree).root =
      true :=
  capacity_invariant 1 (by norm_num) [(1, 10), (2, 20)]
    ⟨⟨1, [2], [20], [⟨1, [1], [10], []⟩, ⟨1, [], [], []⟩]⟩⟩
    (by simp [addAll, addStepSmall1, addStepSmall2])

theorem height_pos (n : BTreeNode) : 1 ≤ height n := by
  rw [height]
  omega

theorem height_congr (a b : BTreeNode) (h : a.children = b.children) :
    height a = height b := by
  rw [height, height, h]

theorem height_le_heightList (l : List BTreeNode) (c : BTreeNode)
    (h : c ∈ l) : height c ≤ heightList l := by
  induction l with
  | nil => simp at h
  | cons a as ihl =>
    rcases List.mem_cons.mp h with heq | hmem
    · rw [heq, heightList]
      omega
    · rw [heightList]
      have := ihl hmem
      omega

theorem heightList_set (l : List BTreeNode) (i : Nat) (c' : BTreeNode)
    (hi : i < l.length) (hh : height c' = height (l.get ⟨i, hi⟩)) :
    heightList (l.set i c') = heightList l := by
  induction l generalizing i with
  | nil => simp at hi
  | cons a as ihl =>
    cases i with
    | zero =>
      simp only [List.set, heightList]
      rw [hh]
      rfl
    | succ j =>
      simp only [List.set, heightList]
      rw [ihl j (by simpa using hi) (by simpa using hh)]

theorem heightList_insertIdx (l : List BTreeNode) (i : Nat) (x : BTreeNode)
    (hi : i ≤ l.length) :
    heightList (l.insertIdx i x) = max (height x) (heightList l) := by
  induction l generalizing i with
  | nil =>
    have h0 : i = 0 := by simpa using hi
    rw [h0]
    simp only [List.insertIdx_zero, heightList]
  | cons a as ihl =>
    cases i with
    | zero =>
      simp only [List.insertIdx_zero, heightList]
    | succ j =>
      rw [List.insertIdx_succ_cons]
      simp only [heightList]
      rw [ihl j (by simpa using hi)]
      omega

theorem finishAdd_height (m : BTreeNode) :
    height (BTreeNode.finishAdd m).1 = height m ∧
    ∀ s, (BTreeNode.finishAdd m).2 = some s → s.children = [] := by
  by_cases hfull : m.keys.length = m.node_size + 1
  · have h1 : BTreeNode.finishAdd m =
        ((BTreeNode.split m).1, some (BTreeNode.split m).2) := by
      rw [BTreeNode.finishAdd, if_pos hfull]
    simp only [h1]
    constructor
    · exact height_congr _ _ rfl
    · intro s hs
      injection hs with hs
      rw [← hs]
      rfl
  · have h1 : BTreeNode.finishAdd m = (m, none) := by
      rw [BTreeNode.finishAdd, if_neg hfull]
    rw [h1]
    exact ⟨rfl, by intro s hs; cases hs⟩

theorem add_recursive_height :
    ∀ n : BTreeNode, ∀ (k v : Int) (n' : BTreeNode) (opt : Option BTreeNode),
      BTreeNode.add_recursive n k v = some (n', opt) →
      height n' = height n ∧ ∀ s, opt = some s → s.children = [] := by
  refine node_ind _ ?_
  intro n ih k v n' opt hadd
  rw [BTreeNode.add_recursive.eq_def] at hadd
  simp only [] at hadd
  by_cases hleaf : n.children.length < n.node_size + 1
  · rw [if_pos hleaf] at hadd
    set idx := (if BTreeNode.find_it n.keys k < 0 then
        (-(BTreeNode.find_it n.keys k + 1)).toNat
      else (BTreeNode.find_it n.keys k).toNat) with hidx
    by_cases hguard : idx ≤ n.keys.length ∧ idx ≤ n.values.length
    · rw [if_pos hguard] at hadd
      injection hadd with hadd
      rw [Prod.ext_iff] at hadd
      obtain ⟨h1, h2⟩ := hadd
      simp only at h1 h2
      rw [← h1]
      have hres := finishAdd_height (BTreeNode.insertAt n idx k v)
      refine ⟨?_, ?_⟩
      · rw [hres.1]
        exact height_congr _ _ rfl
      · intro s hs
        rw [hs] at h2
        exact hres.2 s h2
    · rw [if_neg hguard] at hadd
      cases hadd
  · rw [if_neg hleaf] at hadd
    set idx := ((BTreeNode.find_it n.keys k) % 2 ^ 64).toNat with hidx
    by_cases hassert : idx ≤ n.children.length + 1
    · rw [if_pos hassert] at hadd
      by_cases hin : idx < n.children.length
      · rw [dif_pos hin] at hadd
        have hmem := List.get_mem n.children idx hin
        rcases hrec : BTreeNode.add_recursive (n.children.get ⟨idx, hin⟩) k v
          with _ | ⟨c', copt⟩
        · rw [hrec] at hadd
          cases hadd
        · rw [hrec] at hadd
          have hcgood := ih _ hmem k v c' copt hrec
          rcases copt with _ | s
          · simp only [] at hadd
            injection hadd with hadd
            rw [Prod.ext_iff] at hadd
            obtain ⟨h1, h2⟩ := hadd
            simp only at h1 h2
            rw [← h1]
            have hres := finishAdd_height
              { n with children := n.children.set idx c' }
            refine ⟨?_, ?_⟩
            · rw [hres.1, height, height]
              simp only []
              rw [heightList_set n.children idx c' hin hcgood.1]
            · intro s hs
              rw [hs] at h2
              exact hres.2 s h2
          · simp only [] at hadd
            have hsch : s.children = [] := hcgood.2 s rfl
            rcases hske : s.keys with _ | ⟨nk, tk⟩ <;>
              rcases hsve : s.values with _ | ⟨nv, tv⟩ <;>
              rw [hske, hsve] at hadd
            · cases hadd
            · cases hadd
            · cases hadd
            · simp only [] at hadd
              by_cases hguard2 : idx ≤ n.keys.length ∧ idx ≤ n.values.length
              · rw [if_pos hguard2] at hadd
                injection hadd with hadd
                rw [Prod.ext_iff] at hadd
                obtain ⟨h1, h2⟩ := hadd
                simp only at h1 h2
                rw [← h1]
                have hstail : height ⟨s.node_size, tk, tv, s.children⟩ = 1 := by
                  rw [height]
                  simp only []
                  rw [hsch, heightList]
                have hres := finishAdd_height
                    (BTreeNode.insertAt
                      { n with children := (n.children.set idx c').insertIdx (idx + 1) ⟨s.node_size, tk, tv, s.children⟩ }
                      idx nk nv)
                refine ⟨?_, ?_⟩
                · rw [hres.1]
                  have hmain : height (BTreeNode.insertAt
                      { n with children := (n.children.set idx c').insertIdx (idx + 1) ⟨s.node_size, tk, tv, s.children⟩ }
                      idx nk nv) = 1 + heightList
                        ((n.children.set idx c').insertIdx (idx + 1)
                          ⟨s.node_size, tk, tv, s.children⟩) := by
                    rw [height]
                    rfl
                  rw [hmain, heightList_insertIdx _ _ _
                    (by rw [List.length_set]; omega)]
                  rw [heightList_set n.children idx c' hin hcgood.1, hstail]
                  have hge : 1 ≤ heightList n.children := by
                    have h1le := height_pos (n.children.get ⟨idx, hin⟩)
                    have h2le := height_le_heightList n.children _ hmem
                    omega
                  rw [height]
                  omega
                · intro s2 hs2
                  rw [hs2] at h2
                  exact hres.2 s2 h2
              · rw [if_neg hguard2] at hadd
                cases hadd
      · rw [dif_neg hin] at hadd
        cases hadd
    · rw [if_neg hassert] at hadd
      cases hadd

/-- C8 (confirmed).  Whenever `add_recursive` on the root returns an
overflow sibling `s` (with first key/value `sk`/`sv`), `BTree.add`
installs a new root holding exactly that one key/value pair and exactly
the two children `[updated old root, s minus its first pair]`, and the
tree's height grows by exactly one.  When no overflow sibling is
returned, the root is simply replaced by the updated node and the height
is unchanged — so the root replacement is the only way the height
increases. -/
theorem root_growth (t : BTree) (k v : Int) (r' : BTreeNode) :
    (∀ (s : BTreeNode) (sk : Int) (tk : List Int) (sv : Int) (tv : List Int),
      BTreeNode.add_recursive t.root k v = some (r', some s) →
      s.keys = sk :: tk → s.values = sv :: tv →
      BTree.add t k v =
        some ⟨⟨r'.node_size, [sk], [sv],
          [r', ⟨s.node_size, tk, tv, s.children⟩]⟩⟩ ∧
      height (⟨r'.node_size, [sk], [sv],
          [r', ⟨s.node_size, tk, tv, s.children⟩]⟩ : BTreeNode) =
        height t.root + 1) ∧
    (BTreeNode.add_recursive t.root k v = some (r', none) →
      BTree.add t k v = some ⟨r'⟩ ∧ height r' = height t.root) := by
  constructor
  · intro s sk tk sv tv hrec hske hsve
    have hh := add_recursive_height t.root k v r' (some s) hrec
    have hsch : s.children = [] := hh.2 s rfl
    constructor
    · rw [BTree.add, hrec]
      simp only []
      rw [hske, hsve]
    · have hr1 : 1 ≤ height r' := height_pos r'
      have hstail : height (⟨s.node_size, tk, tv, s.children⟩ : BTreeNode) = 1 := by
        rw [height]
        simp only []
        rw [hsch, heightList]
      rw [height]
      simp only [heightList]
      rw [hstail, hh.1]
      have := height_pos t.root
      omega
  · intro hrec
    have hh := add_recursive_height t.root k v r' none hrec
    constructor
    · rw [BTree.add, hrec]
    · exact hh.1

/-- Witness for C8: on the capacity-1 tree holding only `(1,10)`,
inserting `(2,20)` overflows the root; the new root is exactly
`⟨keys [2], values [20], children [old root, emptied sibling]⟩` and the
height goes from 1 to 2; the first insertion into a fresh tree returns
no overflow and keeps height 1. -/
theorem root_growth_witness :
    (BTree.add ⟨⟨1, [1], [10], []⟩⟩ 2 20 =
        some ⟨⟨1, [2], [20], [⟨1, [1], [10], []⟩, ⟨1, [], [], []⟩]⟩⟩ ∧
      height (⟨1, [2], [20], [⟨1, [1], [10], []⟩, ⟨1, [], [], []⟩]⟩ : BTreeNode) =
        height (⟨⟨1, [1], [10], []⟩⟩ : BTree).root + 1) ∧
    (BTree.add (BTree.new 1) 1 10 = some ⟨⟨1, [1], [10], []⟩⟩ ∧
      height (⟨1, [1], [10], []⟩ : BTreeNode) = height (BTree.new 1).root) := by
  constructor
  · exact (root_growth ⟨⟨1, [1], [10], []⟩⟩ 2 20 ⟨1, [1], [10], []⟩).1
      ⟨1, [2], [20], []⟩ 2 [] 20 []
      (by simp [BTreeNode.add_recursive, BTreeNode.find_it,
        BTreeNode.find_it_go, BTreeNode.insertAt, BTreeNode.finishAdd,
        BTreeNode.split])
      rfl rfl
  · exact (root_growth (BTree.new 1) 1 10 ⟨1, [1], [10], []⟩).2
      (by simp [BTree.new, BTreeNode.new, BTreeNode.add_recursive,
        BTreeNode.find_it, BTreeNode.find_it_go, BTreeNode.insertAt,
        BTreeNode.finishAdd, BTreeNode.split])

theorem addAll_append (t : BTree) (l1 l2 : List (Int × Int)) :
    addAll t (l1 ++ l2) = match addAll t l1 with
      | none => none
      | some t' => addAll t' l2 := by
  induction l1 generalizing t with
  | nil => rw [addAll]; rfl
  | cons p ps ihl =>
    rcases p with ⟨k, v⟩
    rw [List.cons_append, addAll, addAll]
    rcases hadd : BTree.add t k v with _ | t1 <;> simp only [hadd]
    exact ihl t1

theorem chain_lt_getElem (l : List Int) (h : l.Chain' (· < ·)) :
    ∀ (a b : Nat) (ha : a < l.length) (hb : b < l.length),
      a < b → l[a] < l[b] := by
  intro a b ha hb hab
  exact List.pairwise_iff_getElem.mp (List.chain'_iff_pairwise.mp h) a b ha hb hab

/-- After inserting the first `j ≤ capacity` pairs of a strictly
ascending key sequence into a fresh tree, the tree is still the single
leaf root holding exactly those pairs in order. -/
theorem asc_leaf_state (c : Nat) (ks vs : List Int)
    (hsort : ks.Chain' (· < ·)) :
    ∀ j, j ≤ c → j ≤ ks.length → j ≤ vs.length →
      addAll (BTree.new c) ((ks.zip vs).take j) =
        some ⟨⟨c, ks.take j, vs.take j, []⟩⟩ := by
  intro j
  induction j with
  | zero =>
    intro _ _ _
    rw [List.take_zero, addAll]
    rfl
  | succ j ihj =>
    intro hjc hjk hjv
    have hjk' : j < ks.length := by omega
    have hjv' : j < vs.length := by omega
    have hzlen : j < (ks.zip vs).length := by
      rw [List.length_zip]
      omega
    have htake : (ks.zip vs).take (j + 1) =
        (ks.zip vs).take j ++ [(ks[j], vs[j])] := by
      rw [← List.take_concat_get' (ks.zip vs) j hzlen]
      congr 1
      rw [List.getElem_zip]
    rw [htake, addAll_append,
      ihj (by omega) (by omega) (by omega)]
    simp only []
    have hklen : (ks.take j).length = j := by
      simp [List.length_take]
      omega
    have hvlen : (vs.take j).length = j := by
      simp [List.length_take]
      omega
    have hfind : BTreeNode.find_it (ks.take j) ks[j] = j := by
      have h := BTreeNode.find_it_of_all_lt (ks.take j) ks[j]
        (hsort.take j) ?_
      · rw [h, hklen]
      · intro a ha
        rw [hklen] at ha
        have hget : (ks.take j)[a] = ks[a] :=
          List.getElem_take ..
        rw [hget]
        exact chain_lt_getElem ks hsort a j (by omega) hjk' (by omega)
    have hins : ∀ (l : List Int) (x : Int), l.length = j →
        l.insertIdx j x = l ++ [x] := by
      intro l x hl
      rw [← hl, List.insertIdx_length_self]
    have haddstep : BTree.add ⟨⟨c, ks.take j, vs.take j, []⟩⟩ ks[j] vs[j] =
        some ⟨⟨c, ks.take (j + 1), vs.take (j + 1), []⟩⟩ := by
      rw [BTree.add]
      have hrec : BTreeNode.add_recursive ⟨c, ks.take j, vs.take j, []⟩
          ks[j] vs[j] =
          some (⟨c, ks.take (j + 1), vs.take (j + 1), []⟩, none) := by
        rw [BTreeNode.add_recursive.eq_def]
        simp only [hfind]
        rw [if_pos (by simp)]
        have hidxval : (if (j : Int) < 0 then (-((j : Int) + 1)).toNat
            else ((j : Int)).toNat) = j := by
          rw [if_neg (by omega)]
          omega
        rw [hidxval]
        rw [if_pos ⟨by omega, by omega⟩]
        simp only [BTreeNode.insertAt]
        rw [hins _ _ hklen, hins _ _ hvlen]
        rw [List.take_concat_get' ks j hjk', List.take_concat_get' vs j hjv']
        rw [BTreeNode.finishAdd]
        rw [if_neg (by simp [List.length_take]; omega)]
      rw [hrec]
    rw [addAll, haddstep]
    simp only []
    rw [addAll]

/-- The `(capacity + 1)`-st ascending insertion: the root leaf is full,
so the insert overflows it, splits at `mid = (c+1)/2` and the tree grows
a new root with exactly two leaf children. -/
theorem asc_overflow_step (c : Nat) (ks vs : List Int)
    (hklen : ks.length = c + 1) (hvlen : vs.length = c + 1)
    (hsort : ks.Chain' (· < ·)) (hck : c < ks.length) (hcv : c < vs.length) :
    BTree.add ⟨⟨c, ks.take c, vs.take c, []⟩⟩ (ks[c]) (vs[c]) =
      some ⟨⟨c, [ks[(c + 1) / 2]], [vs[(c + 1) / 2]],
        [⟨c, ks.take ((c + 1) / 2), vs.take ((c + 1) / 2), []⟩,
         ⟨c, ks.drop ((c + 1) / 2 + 1), vs.drop ((c + 1) / 2 + 1), []⟩]⟩⟩ := by
  have hklen' : (ks.take c).length = c := by
    simp [List.length_take]
    omega
  have hvlen' : (vs.take c).length = c := by
    simp [List.length_take]
    omega
  have hfind : BTreeNode.find_it (ks.take c) (ks[c]) = c := by
    have h := BTreeNode.find_it_of_all_lt (ks.take c) (ks[c])
      (hsort.take c) ?_
    · rw [h, hklen']
    · intro a ha
      rw [hklen'] at ha
      have hget : (ks.take c)[a] = ks[a] :=
        List.getElem_take ..
      rw [hget]
      exact chain_lt_getElem ks hsort a c (by omega) hck ha
  have hins : ∀ (l : List Int) (x : Int), l.length = c →
      l.insertIdx c x = l ++ [x] := by
    intro l x hl
    rw [← hl, List.insertIdx_length_self]
  have htk : ks.take c ++ [ks[c]] = ks := by
    rw [List.take_concat_get' ks c hck, ← hklen, List.take_length]
  have htv : vs.take c ++ [vs[c]] = vs := by
    rw [List.take_concat_get' vs c hcv, ← hvlen, List.take_length]
  rw [BTree.add]
  have hrec : BTreeNode.add_recursive ⟨c, ks.take c, vs.take c, []⟩
      (ks[c]) (vs[c]) =
      some (⟨c, ks.take ((c + 1) / 2), vs.take ((c + 1) / 2), []⟩,
        some ⟨c, ks.drop ((c + 1) / 2), vs.drop ((c + 1) / 2), []⟩) := by
    rw [BTreeNode.add_recursive.eq_def]
    simp only [hfind]
    rw [if_pos (by simp)]
    have hidxval : (if (c : Int) < 0 then (-((c : Int) + 1)).toNat
        else ((c : Int)).toNat) = c := by
      rw [if_neg (by omega)]
      omega
    rw [hidxval]
    rw [if_pos ⟨by omega, by omega⟩]
    simp only [BTreeNode.insertAt]
    rw [hins _ _ hklen', hins _ _ hvlen']
    rw [htk, htv]
    rw [BTreeNode.finishAdd]
    rw [if_pos (by simp only []; omega)]
    simp only [BTreeNode.split, hklen]
  rw [hrec]
  simp only []
  have hdk : ks.drop ((c + 1) / 2) =
      (ks[(c + 1) / 2]) :: ks.drop ((c + 1) / 2 + 1) :=
    List.drop_eq_getElem_cons (by omega)
  have hdv : vs.drop ((c + 1) / 2) =
      (vs[(c + 1) / 2]) :: vs.drop ((c + 1) / 2 + 1) :=
    List.drop_eq_getElem_cons (by omega)
  rw [hdk, hdv]

/-- C6 (confirmed).  For every capacity `c ≥ 1`: inserting `c + 1`
pairs with strictly increasing keys into a fresh tree of capacity `c`
causes exactly one root split — after each of the first `c` insertions
the tree is still a childless root of height 1 (no root split has
happened), and after the `(c+1)`-st the root has exactly two children
and the height is exactly 2. -/
theorem height_growth (c : Nat) (hc : 1 ≤ c) (ks vs : List Int)
    (hklen : ks.length = c + 1) (hvlen : vs.length = c + 1)
    (hsort : ks.Chain' (· < ·)) :
    (∀ j, j ≤ c →
      ∃ t, addAll (BTree.new c) ((ks.zip vs).take j) = some t ∧
        t.root.children = [] ∧ height t.root = 1) ∧
    (∃ t, addAll (BTree.new c) (ks.zip vs) = some t ∧
      t.root.children.length = 2 ∧ height t.root = 2) := by
  constructor
  · intro j hj
    refine ⟨⟨⟨c, ks.take j, vs.take j, []⟩⟩,
      asc_leaf_state c ks vs hsort j hj (by omega) (by omega), rfl, ?_⟩
    simp [height, heightList]
  · have hzlen : (ks.zip vs).length = c + 1 := by
      rw [List.length_zip]
      omega
    have hfull : ks.zip vs = (ks.zip vs).take c ++
        [(ks[c], vs[c])] := by
      have h1 : ks.zip vs = (ks.zip vs).take (c + 1) := by
        rw [← hzlen, List.take_length]
      have h2 : (ks.zip vs).take (c + 1) =
          (ks.zip vs).take c ++ [(ks.zip vs)[c]] :=
        (List.take_concat_get' (ks.zip vs) c (by omega)).symm
      conv_lhs => rw [h1, h2]
      rw [List.getElem_zip]
    have hstep := asc_overflow_step c ks vs hklen hvlen hsort
      (by omega) (by omega)
    have haddfull : addAll (BTree.new c) (ks.zip vs) =
        some ⟨⟨c, [ks[(c + 1) / 2]], [vs[(c + 1) / 2]],
          [⟨c, ks.take ((c + 1) / 2), vs.take ((c + 1) / 2), []⟩,
           ⟨c, ks.drop ((c + 1) / 2 + 1), vs.drop ((c + 1) / 2 + 1), []⟩]⟩⟩ := by
      conv_lhs => rw [hfull]
      rw [addAll_append,
        asc_leaf_state c ks vs hsort c (by omega) (by omega) (by omega)]
      simp only []
      rw [addAll, hstep]
      simp only []
      rw [addAll]
    refine ⟨_, haddfull, rfl, ?_⟩
    simp [height, heightList]

/-- Witness for C6 at capacity 1 with keys `[1, 2]`, values `[10, 20]`. -/
theorem height_growth_witness :
    (∀ j, j ≤ 1 →
      ∃ t, addAll (BTree.new 1) ((([1, 2] : List Int).zip
          ([10, 20] : List Int)).take j) = some t ∧
        t.root.children = [] ∧ height t.root = 1) ∧
    (∃ t, addAll (BTree.new 1) (([1, 2] : List Int).zip
        ([10, 20] : List Int)) = some t ∧
      t.root.children.length = 2 ∧ height t.root = 2) :=
  height_growth 1 (by norm_num) [1, 2] [10, 20] (by norm_num) (by norm_num)
    (by simp [List.chain'_cons])
